import Mathlib

/-!
Verification of the key-backup store (`src/database/key_backups.rs`).

The store keeps three sled trees (ordered byte-keyed maps):
`backupid_algorithm`, `backupid_etag`, `backupkeyid_backup`.  We embed a
sled tree as an association list of byte keys and byte values kept in
ascending byte-lexicographic key order, and every public operation of
`KeyBackups` as a Lean function over that state.  Machine bytes are `Nat`
values below 256, the reserved separator is `0xff = 255`, and the external
monotonic counter is passed in explicitly as a `Nat` argument.
-/

namespace Conduit

/-- A byte string: the keys and values of the underlying sled trees. -/
abbrev Bytes := List Nat

/-- The reserved separator byte `0xff` used by the composite-key encoding. -/
def sep : Nat := 255

/-- Byte-lexicographic strict order on byte strings, the order in which a
sled tree stores and iterates its keys.  A proper initial segment sorts
before its extensions. -/
def bytesLt : Bytes → Bytes → Bool
  | [], [] => false
  | [], _ :: _ => true
  | _ :: _, [] => false
  | a :: as, b :: bs => decide (a < b) || (decide (a = b) && bytesLt as bs)

/-- A component is admissible for the composite-key encoding when it does
not contain the reserved separator byte. -/
def noSep (b : Bytes) : Bool := b.all (fun x => x != sep)

/-- A sled tree: an association list from byte keys to values, kept in
ascending `bytesLt` key order (the `Wf` predicate below). -/
abbrev SMap (α : Type) := List (Bytes × α)

/-- `Tree::get`: the value stored at `k`, if any. -/
def SMap.get {α : Type} (t : SMap α) (k : Bytes) : Option α :=
  (t.find? (fun kv => kv.1 == k)).map (·.2)

/-- `Tree::insert`: store `v` at `k`, replacing any previous value and
keeping the list sorted. -/
def SMap.insert {α : Type} : SMap α → Bytes → α → SMap α
  | [], k, v => [(k, v)]
  | kv :: rest, k, v =>
    if kv.1 = k then (k, v) :: rest
    else if bytesLt k kv.1 then (k, v) :: kv :: rest
    else kv :: SMap.insert rest k v

/-- `Tree::remove`: drop the binding of `k`, a no-op when absent. -/
def SMap.remove {α : Type} (t : SMap α) (k : Bytes) : SMap α :=
  t.filter (fun kv => kv.1 != k)

/-- `Tree::scan_prefix`: all bindings whose key extends `p`, in ascending
key order. -/
def SMap.scanPfx {α : Type} (t : SMap α) (p : Bytes) : SMap α :=
  t.filter (fun kv => p.isPrefixOf kv.1)

/-- Removing a list of keys one after the other, as the `for … remove`
loops of the Rust code do. -/
def SMap.removeKeys {α : Type} (t : SMap α) (ks : List Bytes) : SMap α :=
  ks.foldl SMap.remove t

/-- Well-formedness of an embedded sled tree: keys strictly ascending in
byte-lexicographic order (hence duplicate-free), as sled guarantees. -/
def SMap.Wf {α : Type} (t : SMap α) : Prop :=
  List.Pairwise (fun a b => bytesLt a.1 b.1 = true) t

instance {α : Type} (t : SMap α) : Decidable t.Wf :=
  List.instDecidablePairwise t

/-- Opaque encodable blob (the serde-JSON image of a `BackupAlgorithm` or
`KeyBackupData` value): serialization of payload `n`.  Injective, so that
`decB ∘ encB = some`, while arbitrary stored bytes may fail to decode. -/
def encB (n : Nat) : Bytes := List.replicate (n + 1) 0

/-- Deserialization of a stored blob; fails (`serde_json::from_slice`
error, surfaced as `bad_database`) on bytes that are not a valid image. -/
def decB (b : Bytes) : Option Nat :=
  if !b.isEmpty && b.all (fun x => x == 0) then some (b.length - 1) else none

/-- Modelled from the spec: `utils::string_from_bytes` (the `utils` module
of the repository is not under `src/`).  Decoding a segment fails when it
is not valid text; modelled as requiring ASCII bytes and returning the
byte string unchanged when valid. -/
def string_from_bytes (b : Bytes) : Option Bytes :=
  if b.all (fun c => decide (c < 128)) then some b else none

/-- Modelled from the spec: `ruma`'s `RoomId::try_from` on the decoded
string (an external collaborator crate).  Decoding fails when the segment
is not valid identifier syntax; modelled as requiring the leading sigil
byte `'!' = 33` of a room id. -/
def roomIdFromBytes (b : Bytes) : Option Bytes :=
  if b.headD 0 == 33 then some b else none

/-- `u64::to_be_bytes`: the eight-byte big-endian image of a counter
value. -/
def u64be (n : Nat) : Bytes :=
  [n / 2 ^ 56 % 256, n / 2 ^ 48 % 256, n / 2 ^ 40 % 256, n / 2 ^ 32 % 256,
   n / 2 ^ 24 % 256, n / 2 ^ 16 % 256, n / 2 ^ 8 % 256, n % 256]

/-- Modelled from the spec: `utils::u64_from_bytes` (the `utils` module of
the repository is not under `src/`).  Reads an eight-byte big-endian
value and fails on any other length. -/
def u64_from_bytes : Bytes → Option Nat
  | [b7, b6, b5, b4, b3, b2, b1, b0] =>
      some (b7 * 2 ^ 56 + b6 * 2 ^ 48 + b5 * 2 ^ 40 + b4 * 2 ^ 32 +
            b3 * 2 ^ 24 + b2 * 2 ^ 16 + b1 * 2 ^ 8 + b0)
  | _ => none

/-- Decimal digits of `n` rendered as ASCII bytes, most significant first;
`fuel` bounds the recursion and any `fuel ≥ n` is enough. -/
def natToDecAux : Nat → Nat → Bytes
  | 0, _ => []
  | _ + 1, 0 => []
  | fuel + 1, n + 1 => natToDecAux fuel ((n + 1) / 10) ++ [48 + (n + 1) % 10]

/-- `u64::to_string`: the decimal rendering of a counter value as bytes,
used for backup version identifiers. -/
def natToDec (n : Nat) : Bytes := if n = 0 then [48] else natToDecAux n n

/-- One step of reading a decimal ASCII byte string back as a number. -/
def decStep (a d : Nat) : Nat := a * 10 + (d - 48)

/-- Reading a decimal ASCII byte string back as the number it denotes:
the "interpreted as an unsigned integer" view of an etag string. -/
def decToNat (l : Bytes) : Nat := l.foldl decStep 0

/-- Splitting a byte string at every separator byte, left to right; always
returns at least one (possibly empty) segment. -/
def splitFF : Bytes → List Bytes
  | [] => [[]]
  | b :: rest =>
    if b = sep then [] :: splitFF rest
    else
      match splitFF rest with
      | [] => [[b]]
      | shd :: stl => (b :: shd) :: stl

/-- `slice::rsplit` on the separator byte: the separator-delimited
segments of a key, rightmost first. -/
def rsplitFF (k : Bytes) : List Bytes := (splitFF k).reverse

/-- The error kinds the module surfaces: `ErrorKind::NotFound` for a
missing backup version, `Error::bad_database` for corrupted stored data. -/
inductive Err where
  | notFound
  | badDatabase
deriving DecidableEq

/-- The `KeyBackups` struct: its three sled trees. -/
structure KeyBackups where
  backupid_algorithm : SMap Bytes
  backupid_etag : SMap Bytes
  backupkeyid_backup : SMap Bytes
deriving DecidableEq

/-- The composite key `user ‖ 0xff ‖ version` of the version-metadata and
etag tables. -/
def backupKey (user_id version : Bytes) : Bytes := user_id ++ sep :: version

/-- The composite key `user ‖ 0xff ‖ version ‖ 0xff ‖ room ‖ 0xff ‖ session`
of the entry table. -/
def entryKey (user_id version room_id session_id : Bytes) : Bytes :=
  user_id ++ sep :: (version ++ sep :: (room_id ++ sep :: session_id))

/-- The separator-terminated scan pre-key `user ‖ 0xff` covering all of a
user's version-table rows. -/
def userPfx (user_id : Bytes) : Bytes := user_id ++ [sep]

/-- The separator-terminated scan pre-key `user ‖ 0xff ‖ version ‖ 0xff`
covering all entries of one backup version. -/
def entriesPfx (user_id version : Bytes) : Bytes :=
  user_id ++ sep :: (version ++ [sep])

/-- The separator-terminated scan pre-key covering all entries of one room
within one backup version. -/
def roomPfx (user_id version room_id : Bytes) : Bytes :=
  user_id ++ sep :: (version ++ sep :: (room_id ++ [sep]))

/-- `KeyBackups::create_backup`: render the next counter value `c1` as the
new version id, store the metadata under `(user, version)` and a fresh
etag from the following counter value `c2`; returns the version id. -/
def create_backup (s : KeyBackups) (user_id : Bytes) (backup_metadata : Nat)
    (c1 c2 : Nat) : KeyBackups × Bytes :=
  let version := natToDec c1
  let key := backupKey user_id version
  ({ s with
      backupid_algorithm := s.backupid_algorithm.insert key (encB backup_metadata)
      backupid_etag := s.backupid_etag.insert key (u64be c2) },
   version)

/-- `KeyBackups::delete_backup`: remove the metadata and etag rows of
`(user, version)`, then remove every entry found by scanning the
separator-terminated entry prefix. -/
def delete_backup (s : KeyBackups) (user_id version : Bytes) : KeyBackups :=
  let key := backupKey user_id version
  let entries := s.backupkeyid_backup
  { backupid_algorithm := s.backupid_algorithm.remove key
    backupid_etag := s.backupid_etag.remove key
    backupkeyid_backup :=
      entries.removeKeys ((entries.scanPfx (key ++ [sep])).map (·.1)) }

/-- `KeyBackups::update_backup`: `NotFound` when `(user, version)` has no
stored metadata; otherwise overwrite the metadata, write a fresh etag from
counter value `c`, and return the version id unchanged. -/
def update_backup (s : KeyBackups) (user_id version : Bytes)
    (backup_metadata : Nat) (c : Nat) : KeyBackups × Except Err Bytes :=
  let key := backupKey user_id version
  match s.backupid_algorithm.get key with
  | none => (s, Except.error Err.notFound)
  | some _ =>
      ({ s with
          backupid_algorithm := s.backupid_algorithm.insert key (encB backup_metadata)
          backupid_etag := s.backupid_etag.insert key (u64be c) },
       Except.ok version)

/-- `KeyBackups::get_latest_backup`: the last row of the metadata-table
scan over `user ‖ 0xff`, its version id recovered as the rightmost
separator-delimited segment of the key. -/
def get_latest_backup (s : KeyBackups) (user_id : Bytes) :
    Except Err (Option (Bytes × Nat)) :=
  match (s.backupid_algorithm.scanPfx (userPfx user_id)).getLast? with
  | none => Except.ok none
  | some (key, value) =>
    match string_from_bytes ((rsplitFF key).headD []) with
    | none => Except.error Err.badDatabase
    | some version =>
      match decB value with
      | none => Except.error Err.badDatabase
      | some alg => Except.ok (some (version, alg))

/-- `KeyBackups::get_backup`: point lookup of the metadata of
`(user, version)`. -/
def get_backup (s : KeyBackups) (user_id version : Bytes) :
    Except Err (Option Nat) :=
  match s.backupid_algorithm.get (backupKey user_id version) with
  | none => Except.ok none
  | some bytes =>
    match decB bytes with
    | none => Except.error Err.badDatabase
    | some alg => Except.ok (some alg)

/-- `KeyBackups::add_key`: `NotFound` when the version's metadata is
absent; otherwise bump the etag from counter value `c` and write the entry
at `(user, version, room, session)`, replacing any previous value. -/
def add_key (s : KeyBackups) (user_id version room_id session_id : Bytes)
    (key_data : Nat) (c : Nat) : KeyBackups × Except Err Unit :=
  let key := backupKey user_id version
  match s.backupid_algorithm.get key with
  | none => (s, Except.error Err.notFound)
  | some _ =>
      ({ s with
          backupid_etag := s.backupid_etag.insert key (u64be c)
          backupkeyid_backup :=
            s.backupkeyid_backup.insert
              (entryKey user_id version room_id session_id) (encB key_data) },
       Except.ok ())

/-- `KeyBackups::count_keys`: the number of entry rows scanned under the
prefix `user ‖ 0xff ‖ version` — note, with no trailing separator. -/
def count_keys (s : KeyBackups) (user_id version : Bytes) : Nat :=
  (s.backupkeyid_backup.scanPfx (backupKey user_id version)).length

/-- `KeyBackups::get_etag`: read the stored etag of `(user, version)`,
failing as `bad_database` when absent or not eight bytes, and render the
u64 value in decimal. -/
def get_etag (s : KeyBackups) (user_id version : Bytes) : Except Err Bytes :=
  match s.backupid_etag.get (backupKey user_id version) with
  | none => Except.error Err.badDatabase
  | some bytes =>
    match u64_from_bytes bytes with
    | none => Except.error Err.badDatabase
    | some n => Except.ok (natToDec n)

/-- The per-entry decoding step of `get_all`: rightmost key segment as the
session id, next segment as the room id (checked as text and as room-id
syntax), and the stored value as `KeyBackupData`; any failure is a
`bad_database` error. -/
def decodeEntry (key value : Bytes) : Except Err (Bytes × Bytes × Nat) := do
  let parts := rsplitFF key
  let session ←
    match string_from_bytes (parts.headD []) with
    | none => Except.error Err.badDatabase
    | some x => Except.ok x
  let roomSeg ←
    match parts[1]? with
    | none => Except.error Err.badDatabase
    | some x => Except.ok x
  let roomStr ←
    match string_from_bytes roomSeg with
    | none => Except.error Err.badDatabase
    | some x => Except.ok x
  let room ←
    match roomIdFromBytes roomStr with
    | none => Except.error Err.badDatabase
    | some x => Except.ok x
  let kd ←
    match decB value with
    | none => Except.error Err.badDatabase
    | some x => Except.ok x
  Except.ok (room, session, kd)

/-- `KeyBackups::get_all`: scan every entry of the version and group them
as room ↦ session ↦ data in `BTreeMap`s; the first entry that fails to
decode aborts the whole scan with its error. -/
def get_all (s : KeyBackups) (user_id version : Bytes) :
    Except Err (SMap (SMap Nat)) :=
  (s.backupkeyid_backup.scanPfx (entriesPfx user_id version)).foldlM
    (fun rooms kv => do
      let (room, session, kd) ← decodeEntry kv.1 kv.2
      let sessions := (rooms.get room).getD []
      Except.ok (rooms.insert room (sessions.insert session kd)))
    []

/-- The per-entry decoding step of `get_room`: rightmost key segment as
the session id and the stored value as `KeyBackupData`. -/
def decodeRoomEntry (key value : Bytes) : Except Err (Bytes × Nat) := do
  let session ←
    match string_from_bytes ((rsplitFF key).headD []) with
    | none => Except.error Err.badDatabase
    | some x => Except.ok x
  let kd ←
    match decB value with
    | none => Except.error Err.badDatabase
    | some x => Except.ok x
  Except.ok (session, kd)

/-- `KeyBackups::get_room`: scan the room's entries and collect the ones
that decode into a `BTreeMap`, silently dropping every entry that fails to
decode. -/
def get_room (s : KeyBackups) (user_id version room_id : Bytes) : SMap Nat :=
  ((s.backupkeyid_backup.scanPfx (roomPfx user_id version room_id)).filterMap
    (fun kv => (decodeRoomEntry kv.1 kv.2).toOption)).foldl
    (fun m sv => m.insert sv.1 sv.2) []

/-- `KeyBackups::get_session`: point lookup of one entry, decoding the
stored value. -/
def get_session (s : KeyBackups) (user_id version room_id session_id : Bytes) :
    Except Err (Option Nat) :=
  match s.backupkeyid_backup.get (entryKey user_id version room_id session_id) with
  | none => Except.ok none
  | some value =>
    match decB value with
    | none => Except.error Err.badDatabase
    | some kd => Except.ok (some kd)

/-- `KeyBackups::delete_all_keys`: remove every entry found by scanning
the version's separator-terminated entry prefix. -/
def delete_all_keys (s : KeyBackups) (user_id version : Bytes) : KeyBackups :=
  let t := s.backupkeyid_backup
  { s with backupkeyid_backup :=
      t.removeKeys ((t.scanPfx (entriesPfx user_id version)).map (·.1)) }

/-- `KeyBackups::delete_room_keys`: remove every entry found by scanning
the room's separator-terminated prefix. -/
def delete_room_keys (s : KeyBackups) (user_id version room_id : Bytes) :
    KeyBackups :=
  let t := s.backupkeyid_backup
  { s with backupkeyid_backup :=
      t.removeKeys ((t.scanPfx (roomPfx user_id version room_id)).map (·.1)) }

/-- `KeyBackups::delete_room_key`: remove every entry found by scanning
with the full four-component key as the prefix — the key is not
separator-terminated, so any session id extending the given one also
matches. -/
def delete_room_key (s : KeyBackups) (user_id version room_id session_id : Bytes) :
    KeyBackups :=
  let t := s.backupkeyid_backup
  let full := entryKey user_id version room_id session_id
  { s with backupkeyid_backup := t.removeKeys ((t.scanPfx full).map (·.1)) }

/-- An underlying-store failure (a sled I/O error): the `StoreFailure`
error kind, opaque to this module. -/
inductive StoreErr where
  | ioFailure
deriving DecidableEq

/-- The cascade-delete loop shared by `delete_backup`, `delete_all_keys`,
`delete_room_keys` and `delete_room_key`, over the fallible item stream
the sled iterator actually yields: `.keys().filter_map(|r| r.ok())` keeps
only the `Ok` keys, each kept key is removed, and the loop completes with
`Ok` no matter how many stream items failed.  The four operations above
are this loop applied to the all-`Ok` stream of the embedded (total)
store. -/
def removeScannedKeys {ε : Type} (t : SMap Bytes)
    (results : List (Except ε Bytes)) : SMap Bytes × Except ε Unit :=
  ((results.filterMap Except.toOption).foldl SMap.remove t, Except.ok ())

/-! ### Laws of the embedded sled tree -/

theorem SMap.get_insert_self {α : Type} (t : SMap α) (k : Bytes) (v : α) :
    (t.insert k v).get k = some v := by
  induction t with
  | nil => simp [SMap.insert, SMap.get]
  | cons kv rest ih =>
    by_cases h1 : kv.1 = k
    · simp [SMap.insert, h1, SMap.get]
    · by_cases h2 : bytesLt k kv.1 = true
      · simp [SMap.insert, h1, h2, SMap.get]
      · simpa [SMap.insert, h1, h2, SMap.get, List.find?_cons_of_neg,
          Ne.symm h1] using ih

theorem SMap.get_filter_keep {α : Type} (t : SMap α) (q : Bytes × α → Bool)
    (k : Bytes) (h : ∀ v, q (k, v) = true) :
    SMap.get (t.filter q) k = t.get k := by
  induction t with
  | nil => simp [SMap.get]
  | cons kv rest ih =>
    by_cases h1 : kv.1 = k
    · have hq : q kv = true := by
        have : kv = (k, kv.2) := by
          cases kv; simp_all
        rw [this]; exact h kv.2
      simp [List.filter_cons, hq, SMap.get, h1]
    · by_cases hq : q kv = true
      · simpa [List.filter_cons, hq, SMap.get, List.find?_cons_of_neg, h1] using ih
      · simpa [List.filter_cons, hq, SMap.get, List.find?_cons_of_neg, h1] using ih

theorem SMap.get_filter_drop {α : Type} (t : SMap α) (q : Bytes × α → Bool)
    (k : Bytes) (h : ∀ v, q (k, v) = false) :
    SMap.get (t.filter q) k = none := by
  induction t with
  | nil => simp [SMap.get]
  | cons kv rest ih =>
    by_cases h1 : kv.1 = k
    · have hq : q kv = false := by
        have : kv = (k, kv.2) := by
          cases kv; simp_all
        rw [this]; exact h kv.2
      simpa [List.filter_cons, hq, SMap.get] using ih
    · by_cases hq : q kv = true
      · simpa [List.filter_cons, hq, SMap.get, List.find?_cons_of_neg, h1] using ih
      · simpa [List.filter_cons, hq, SMap.get] using ih

theorem SMap.get_remove_self {α : Type} (t : SMap α) (k : Bytes) :
    (t.remove k).get k = none :=
  SMap.get_filter_drop t _ k (fun _ => by simp)

theorem SMap.get_remove_ne {α : Type} (t : SMap α) {k k' : Bytes} (h : k' ≠ k) :
    (t.remove k).get k' = t.get k' :=
  SMap.get_filter_keep t _ k' (fun _ => by simp [h])

theorem SMap.removeKeys_cons {α : Type} (t : SMap α) (a : Bytes) (ks : List Bytes) :
    t.removeKeys (a :: ks) = (t.remove a).removeKeys ks := rfl

theorem SMap.get_removeKeys {α : Type} (t : SMap α) (ks : List Bytes) (k : Bytes) :
    (t.removeKeys ks).get k = if k ∈ ks then none else t.get k := by
  induction ks generalizing t with
  | nil => simp [SMap.removeKeys]
  | cons a ks ih =>
    rw [SMap.removeKeys_cons, ih]
    by_cases h : k = a
    · subst h
      simp [SMap.get_remove_self]
    · simp [h, SMap.get_remove_ne t h]

theorem SMap.mem_removeKeys {α : Type} {t : SMap α} {ks : List Bytes}
    {kv : Bytes × α} (h : kv ∈ t.removeKeys ks) : kv ∈ t ∧ kv.1 ∉ ks := by
  induction ks generalizing t with
  | nil => simpa [SMap.removeKeys] using h
  | cons a ks ih =>
    rw [SMap.removeKeys_cons] at h
    obtain ⟨h1, h2⟩ := ih h
    rw [SMap.remove, List.mem_filter] at h1
    refine ⟨h1.1, ?_⟩
    have : kv.1 ≠ a := by simpa using h1.2
    simp [this, h2]

theorem SMap.mem_scanPfx {α : Type} {t : SMap α} {p : Bytes} {kv : Bytes × α} :
    kv ∈ t.scanPfx p ↔ kv ∈ t ∧ p.isPrefixOf kv.1 = true := by
  simp [SMap.scanPfx, List.mem_filter]

theorem SMap.get_mem {α : Type} {t : SMap α} {k : Bytes} {v : α}
    (h : t.get k = some v) : (k, v) ∈ t := by
  rw [SMap.get, Option.map_eq_some'] at h
  obtain ⟨kv, hfind, hv⟩ := h
  have hmem := List.mem_of_find?_eq_some hfind
  have hk : kv.1 = k := by simpa using List.find?_some hfind
  have : kv = (k, v) := by
    cases kv; simp_all
  rwa [this] at hmem

theorem SMap.scanPfx_wf {α : Type} {t : SMap α} (h : t.Wf) (p : Bytes) :
    (t.scanPfx p).Wf :=
  h.sublist (List.filter_sublist t)

/-! ### The byte-lexicographic order -/

theorem bytesLt_irrefl (b : Bytes) : bytesLt b b = false := by
  induction b with
  | nil => rfl
  | cons x rest ih => simp [bytesLt, ih]

theorem SMap.wf_keys_nodup {α : Type} {t : SMap α} (h : t.Wf) :
    (t.map (·.1)).Nodup := by
  rw [List.Nodup, List.pairwise_map]
  refine h.imp ?_
  intro a b hab heq
  rw [heq, bytesLt_irrefl] at hab
  exact Bool.false_ne_true hab

theorem mem_of_getLast?_eq_some {α : Type} {l : List α} {x : α}
    (h : l.getLast? = some x) : x ∈ l := by
  obtain ⟨hne, hx⟩ := List.mem_getLast?_eq_getLast (Option.mem_def.mpr h)
  rw [hx]
  exact List.getLast_mem hne

theorem pairwise_getLast_max {α : Type} {R : α → α → Prop} :
    ∀ {l : List α}, List.Pairwise R l → ∀ {x}, l.getLast? = some x →
      ∀ {y}, y ∈ l → y = x ∨ R y x := by
  intro l
  induction l with
  | nil => intro _ x hx; simp at hx
  | cons a t ih =>
    intro hp x hx y hy
    cases t with
    | nil =>
      simp only [List.getLast?_singleton, Option.some.injEq] at hx
      rcases List.mem_singleton.mp hy with rfl
      exact Or.inl hx
    | cons b t2 =>
      rw [List.getLast?_cons_cons] at hx
      rcases List.mem_cons.mp hy with rfl | h2
      · exact Or.inr ((List.pairwise_cons.mp hp).1 x (mem_of_getLast?_eq_some hx))
      · exact ih (List.pairwise_cons.mp hp).2 hx h2

/-! ### The key codec -/

theorem splitFF_ne_nil (b : Bytes) : splitFF b ≠ [] := by
  match b with
  | [] => simp [splitFF]
  | x :: rest =>
    by_cases h : x = sep
    · simp [splitFF, h]
    · simp only [splitFF, if_neg h]
      cases hs : splitFF rest <;> simp

theorem splitFF_noSep {b : Bytes} (h : noSep b = true) : splitFF b = [b] := by
  induction b with
  | nil => simp [splitFF]
  | cons x rest ih =>
    rw [noSep, List.all_cons, Bool.and_eq_true] at h
    have hx : x ≠ sep := by simpa using h.1
    rw [splitFF, if_neg hx, ih h.2]

theorem splitFF_append {a : Bytes} (b : Bytes) (h : noSep a = true) :
    splitFF (a ++ sep :: b) = a :: splitFF b := by
  induction a with
  | nil => simp [splitFF]
  | cons x rest ih =>
    rw [noSep, List.all_cons, Bool.and_eq_true] at h
    have hx : x ≠ sep := by simpa using h.1
    rw [List.cons_append, splitFF, if_neg hx, ih h.2]

theorem splitFF_singleton : ∀ {b x : Bytes}, splitFF b = [x] → b = x := by
  intro b
  induction b with
  | nil => intro x h; simpa [splitFF] using h.symm
  | cons y rest ih =>
    intro x h
    by_cases hy : y = sep
    · rw [splitFF, if_pos hy] at h
      obtain ⟨-, h2⟩ := List.cons_eq_cons.mp h
      exact absurd h2 (splitFF_ne_nil rest)
    · rw [splitFF, if_neg hy] at h
      cases hs : splitFF rest with
      | nil => exact absurd hs (splitFF_ne_nil rest)
      | cons shd stl =>
        rw [hs] at h
        obtain ⟨h1, h2⟩ := List.cons_eq_cons.mp h
        subst h2
        have hr : rest = shd := ih (by rw [hs])
        rw [hr]
        exact h1

theorem splitFF_backupKey {u v : Bytes} (hu : noSep u = true) :
    splitFF (backupKey u v) = u :: splitFF v := by
  rw [backupKey, splitFF_append v hu]

theorem splitFF_entryKey {u v r s : Bytes} (hu : noSep u = true)
    (hv : noSep v = true) (hr : noSep r = true) (hs : noSep s = true) :
    splitFF (entryKey u v r s) = [u, v, r, s] := by
  rw [entryKey, splitFF_append _ hu, splitFF_append _ hv, splitFF_append _ hr,
    splitFF_noSep hs]

theorem backupKey_inj {u v u' v' : Bytes} (hu : noSep u = true)
    (hu' : noSep u' = true) (h : backupKey u v = backupKey u' v') :
    u = u' ∧ v = v' := by
  have hsplit : u :: splitFF v = u' :: splitFF v' := by
    rw [← splitFF_backupKey hu, ← splitFF_backupKey hu', h]
  obtain ⟨h1, -⟩ := List.cons_eq_cons.mp hsplit
  subst h1
  refine ⟨rfl, ?_⟩
  have := List.append_cancel_left h
  exact List.cons_eq_cons.mp this |>.2

theorem entryKey_inj {u v r s u' v' r' s' : Bytes} (hu : noSep u = true)
    (hv : noSep v = true) (hr : noSep r = true) (hu' : noSep u' = true)
    (hv' : noSep v' = true) (hr' : noSep r' = true)
    (h : entryKey u v r s = entryKey u' v' r' s') :
    u = u' ∧ v = v' ∧ r = r' ∧ s = s' := by
  have hsplit : u :: v :: r :: splitFF s = u' :: v' :: r' :: splitFF s' := by
    have e1 : splitFF (entryKey u v r s) = u :: v :: r :: splitFF s := by
      rw [entryKey, splitFF_append _ hu, splitFF_append _ hv, splitFF_append _ hr]
    have e2 : splitFF (entryKey u' v' r' s') = u' :: v' :: r' :: splitFF s' := by
      rw [entryKey, splitFF_append _ hu', splitFF_append _ hv', splitFF_append _ hr']
    rw [← e1, ← e2, h]
  obtain ⟨rfl, h2⟩ := List.cons_eq_cons.mp hsplit
  obtain ⟨rfl, h3⟩ := List.cons_eq_cons.mp h2
  obtain ⟨rfl, -⟩ := List.cons_eq_cons.mp h3
  refine ⟨rfl, rfl, rfl, ?_⟩
  have h4 := List.append_cancel_left (List.cons_eq_cons.mp (List.append_cancel_left h) |>.2)
  have h5 := List.append_cancel_left (List.cons_eq_cons.mp h4 |>.2)
  exact List.cons_eq_cons.mp h5 |>.2

/-- The right-inverse pair determines room and session within fixed
`(user, version)`, even when the user or version bytes are arbitrary. -/
theorem entryKey_right_inj {u v r s r' s' : Bytes} (hr : noSep r = true)
    (hs : noSep s = true) (hr' : noSep r' = true) (hs' : noSep s' = true)
    (h : entryKey u v r s = entryKey u v r' s') : r = r' ∧ s = s' := by
  have h1 : r ++ sep :: s = r' ++ sep :: s' := by simpa [entryKey] using h
  have hsp : splitFF (r ++ sep :: s) = splitFF (r' ++ sep :: s') := by rw [h1]
  rw [splitFF_append _ hr, splitFF_append _ hr', splitFF_noSep hs,
    splitFF_noSep hs'] at hsp
  obtain ⟨rfl, h4⟩ := List.cons_eq_cons.mp hsp
  exact ⟨rfl, (List.cons_eq_cons.mp h4 |>.1)⟩

/-! ### Decimal rendering and the etag value -/

theorem natToDecAux_foldl (fuel : Nat) :
    ∀ n a, n ≤ fuel →
      List.foldl decStep a (natToDecAux fuel n) =
        a * 10 ^ (natToDecAux fuel n).length + n := by
  induction fuel with
  | zero =>
    intro n a h
    have : n = 0 := Nat.le_zero.mp h
    subst this
    simp [natToDecAux]
  | succ fuel ih =>
    intro n a h
    match n with
    | 0 => simp [natToDecAux]
    | m + 1 =>
      have hdiv : (m + 1) / 10 ≤ fuel := by
        have := Nat.div_lt_self (Nat.succ_pos m) (by norm_num : 1 < 10)
        omega
      rw [natToDecAux, List.foldl_append, ih ((m + 1) / 10) a hdiv]
      simp only [List.foldl_cons, List.foldl_nil, decStep, List.length_append,
        List.length_cons, List.length_nil]
      have hmod : 48 + (m + 1) % 10 - 48 = (m + 1) % 10 := by omega
      rw [hmod, pow_succ]
      have hdm : (m + 1) / 10 * 10 + (m + 1) % 10 = m + 1 := by omega
      calc (a * 10 ^ (natToDecAux fuel ((m + 1) / 10)).length + (m + 1) / 10) * 10
        + (m + 1) % 10
        = a * (10 ^ (natToDecAux fuel ((m + 1) / 10)).length * 10)
          + ((m + 1) / 10 * 10 + (m + 1) % 10) := by ring
      _ = a * (10 ^ (natToDecAux fuel ((m + 1) / 10)).length * 10) + (m + 1) := by
          rw [hdm]

/-- Rendering a counter value in decimal and reading it back as an
unsigned integer is the identity. -/
theorem decToNat_natToDec (n : Nat) : decToNat (natToDec n) = n := by
  by_cases h : n = 0
  · subst h
    rfl
  · rw [natToDec, if_neg h, decToNat]
    simpa using natToDecAux_foldl n n 0 le_rfl

/-- Writing a u64 counter value big-endian and reading it back is the
identity. -/
theorem u64_from_bytes_u64be {n : Nat} (h : n < 2 ^ 64) :
    u64_from_bytes (u64be n) = some n := by
  rw [u64be, u64_from_bytes]
  congr 1
  omega

/-- Serializing a blob and deserializing it is the identity. -/
theorem decB_encB (n : Nat) : decB (encB n) = some n := by
  simp [decB, encB, List.all_eq_true]

/-- On a stream in which every scan item succeeded, the cascade-delete
loop is exactly `removeKeys` and reports success: the embedded total
operations are the fallible loop's all-`Ok` instance. -/
theorem removeScannedKeys_ok_stream {ε : Type} (t : SMap Bytes)
    (ks : List Bytes) :
    removeScannedKeys t (ks.map (Except.ok : Bytes → Except ε Bytes)) =
      (t.removeKeys ks, Except.ok ()) := by
  have h : (ks.map (Except.ok : Bytes → Except ε Bytes)).filterMap
      Except.toOption = ks := by
    induction ks with
    | nil => rfl
    | cons a l ih => simp [List.filterMap_cons, Except.toOption, ih]
  rw [removeScannedKeys, h]
  rfl

/-- The entry decoding of `get_all`, written as the explicit cascade of
its five checks. -/
theorem decodeEntry_eq (key value : Bytes) :
    decodeEntry key value =
      match string_from_bytes ((rsplitFF key).headD []) with
      | none => Except.error Err.badDatabase
      | some session =>
        match (rsplitFF key)[1]? with
        | none => Except.error Err.badDatabase
        | some roomSeg =>
          match string_from_bytes roomSeg with
          | none => Except.error Err.badDatabase
          | some roomStr =>
            match roomIdFromBytes roomStr with
            | none => Except.error Err.badDatabase
            | some room =>
              match decB value with
              | none => Except.error Err.badDatabase
              | some kd => Except.ok (room, session, kd) := by
  rw [decodeEntry]
  cases string_from_bytes ((rsplitFF key).headD []) with
  | none => rfl
  | some session =>
    cases (rsplitFF key)[1]? with
    | none => rfl
    | some roomSeg =>
      cases string_from_bytes roomSeg with
      | none => rfl
      | some roomStr =>
        cases roomIdFromBytes roomStr with
        | none => rfl
        | some room =>
          cases decB value with
          | none => rfl
          | some kd => rfl

/-! ### Claims -/

/-- C1: for every starting state, user id and metadata blob, calling
`create_backup(user, metadata)` and then `get_backup(user, v)` with the
returned version id `v` returns `Some` of that same metadata. -/
theorem C1_create_backup_then_get_backup (s : KeyBackups) (u : Bytes)
    (meta c1 c2 : Nat) :
    get_backup (create_backup s u meta c1 c2).1 u (create_backup s u meta c1 c2).2 =
      Except.ok (some meta) := by
  simp only [create_backup, get_backup, SMap.get_insert_self, decB_encB]

/-- C6: `update_backup` on a `(user, version)` with no stored metadata
fails with `NotFound` and returns the state unchanged — all three trees
untouched. -/
theorem C6_update_backup_notfound (s : KeyBackups) (u v : Bytes) (meta c : Nat)
    (h : s.backupid_algorithm.get (backupKey u v) = none) :
    update_backup s u v meta c = (s, Except.error Err.notFound) := by
  simp only [update_backup, h]

theorem C6_update_backup_notfound_witness :
    update_backup ⟨[], [], []⟩ [117] [49] 0 5 =
      (⟨[], [], []⟩, Except.error Err.notFound) :=
  C6_update_backup_notfound ⟨[], [], []⟩ [117] [49] 0 5 rfl

/-- C2: when version `v` exists for the user, `add_key` succeeds and
`get_session` then returns exactly the stored data; a second `add_key` for
the same `(room, session)` with different data also succeeds and replaces
the stored value, so `get_session` then returns the new data. -/
theorem C2_add_key_then_get_session (s : KeyBackups) (u v r sess : Bytes)
    (d d' c c' : Nat)
    (h : (s.backupid_algorithm.get (backupKey u v)).isSome = true) :
    (add_key s u v r sess d c).2 = Except.ok () ∧
    get_session (add_key s u v r sess d c).1 u v r sess = Except.ok (some d) ∧
    (add_key (add_key s u v r sess d c).1 u v r sess d' c').2 = Except.ok () ∧
    get_session (add_key (add_key s u v r sess d c).1 u v r sess d' c').1
      u v r sess = Except.ok (some d') := by
  cases hm : s.backupid_algorithm.get (backupKey u v) with
  | none => rw [hm] at h; simp at h
  | some m =>
    refine ⟨?_, ?_, ?_, ?_⟩
    · simp only [add_key, hm]
    · simp only [add_key, hm, get_session, SMap.get_insert_self, decB_encB]
    · simp only [add_key, hm]
    · simp only [add_key, hm, get_session, SMap.get_insert_self, decB_encB]

theorem C2_add_key_then_get_session_witness :
    get_session (add_key (create_backup ⟨[], [], []⟩ [117] 0 1 2).1
      [117] [49] [33] [115] 3 4).1 [117] [49] [33] [115] = Except.ok (some 3) ∧
    get_session (add_key (add_key (create_backup ⟨[], [], []⟩ [117] 0 1 2).1
        [117] [49] [33] [115] 3 4).1 [117] [49] [33] [115] 9 5).1
      [117] [49] [33] [115] = Except.ok (some 9) :=
  ⟨(C2_add_key_then_get_session (create_backup ⟨[], [], []⟩ [117] 0 1 2).1
      [117] [49] [33] [115] 3 9 4 5 (by decide)).2.1,
   (C2_add_key_then_get_session (create_backup ⟨[], [], []⟩ [117] 0 1 2).1
      [117] [49] [33] [115] 3 9 4 5 (by decide)).2.2.2⟩

/-- C3: interpreting etag strings as unsigned integers, a successful
`update_backup` or `add_key` on a version makes `get_etag` of that version
strictly larger than its previous value `e`, assuming the injected counter
value `c` exceeds the previous etag (the counter is strictly increasing)
and fits in a u64. -/
theorem C3_get_etag_increases (s : KeyBackups) (u v r sess : Bytes)
    (meta kd c : Nat) (e : Bytes) (hc : c < 2 ^ 64)
    (he : get_etag s u v = Except.ok e) (hlt : decToNat e < c) :
    (∀ s' ver, update_backup s u v meta c = (s', Except.ok ver) →
      ∃ e', get_etag s' u v = Except.ok e' ∧ decToNat e < decToNat e') ∧
    (∀ s', add_key s u v r sess kd c = (s', Except.ok ()) →
      ∃ e', get_etag s' u v = Except.ok e' ∧ decToNat e < decToNat e') := by
  constructor
  · intro s' ver hup
    cases hm : s.backupid_algorithm.get (backupKey u v) with
    | none => rw [update_backup] at hup; simp [hm] at hup
    | some m =>
      rw [update_backup] at hup
      simp only [hm] at hup
      obtain ⟨hs', -⟩ := Prod.mk.injEq .. ▸ hup
      refine ⟨natToDec c, ?_, ?_⟩
      · rw [← hs']
        simp only [get_etag, SMap.get_insert_self, u64_from_bytes_u64be hc]
      · rwa [decToNat_natToDec]
  · intro s' hadd
    cases hm : s.backupid_algorithm.get (backupKey u v) with
    | none => rw [add_key] at hadd; simp [hm] at hadd
    | some m =>
      rw [add_key] at hadd
      simp only [hm] at hadd
      obtain ⟨hs', -⟩ := Prod.mk.injEq .. ▸ hadd
      refine ⟨natToDec c, ?_, ?_⟩
      · rw [← hs']
        simp only [get_etag, SMap.get_insert_self, u64_from_bytes_u64be hc]
      · rwa [decToNat_natToDec]

theorem C3_get_etag_increases_witness :
    get_etag (update_backup (create_backup ⟨[], [], []⟩ [117] 0 1 2).1
      [117] [49] 9 3).1 [117] [49] = Except.ok [51] ∧
    decToNat [50] < decToNat [51] := by
  obtain ⟨e', he', hlt⟩ :=
    (C3_get_etag_increases (create_backup ⟨[], [], []⟩ [117] 0 1 2).1
        [117] [49] [33] [115] 9 9 3 [50] (by norm_num) rfl (by decide)).1
      (update_backup (create_backup ⟨[], [], []⟩ [117] 0 1 2).1 [117] [49] 9 3).1
      [49] rfl
  have he : e' = [51] := by
    have h2 : (Except.ok e' : Except Err Bytes) = Except.ok [51] := by
      rw [← he']
      rfl
    exact Except.ok.inj h2
  subst he
  exact ⟨he', hlt⟩

/-! #### C4 and C5: `count_keys` counts by a non-terminated prefix -/

/-- C4 counterexample: with versions `"1"` and `"10"` and a single entry
added only to `"10"`, `count_keys(user, "1")` returns 1, not the number
(zero) of pairs added to version `"1"` — the scan prefix
`user ‖ 0xff ‖ "1"` also matches keys of version `"10"`. -/
theorem C4_count_keys_counterexample :
    count_keys
      (add_key (create_backup (create_backup ⟨[], [], []⟩ [117] 0 1 2).1
          [117] 0 10 11).1
        [117] [49, 48] [33] [115] 5 12).1
      [117] [49] = 1 := by decide

/-- C4 (amended): `count_keys(user, v)` returns the number of distinct
`(room, session)` pairs currently stored *whose encoded key extends the
non-terminated prefix `(user, v)`*: whenever the keys scanned under that
prefix are exactly the encodings of a duplicate-free list `L` of
separator-free pairs for version `v`, the count equals `L.length`. -/
theorem C4_count_keys_amended (s : KeyBackups) (u v : Bytes)
    (L : List (Bytes × Bytes)) (hWf : s.backupkeyid_backup.Wf) (hnd : L.Nodup)
    (hff : ∀ p ∈ L, noSep p.1 = true ∧ noSep p.2 = true)
    (hkeys : ∀ k : Bytes,
      k ∈ (s.backupkeyid_backup.scanPfx (backupKey u v)).map (·.1) ↔
        ∃ p ∈ L, k = entryKey u v p.1 p.2) :
    count_keys s u v = L.length := by
  have hkeysnd : ((s.backupkeyid_backup.scanPfx (backupKey u v)).map (·.1)).Nodup :=
    SMap.wf_keys_nodup (SMap.scanPfx_wf hWf _)
  have hLnd : (L.map (fun p => entryKey u v p.1 p.2)).Nodup := by
    apply hnd.map_on
    intro x hx y hy hxy
    obtain ⟨hx1, hx2⟩ := hff x hx
    obtain ⟨hy1, hy2⟩ := hff y hy
    obtain ⟨h1, h2⟩ := entryKey_right_inj hx1 hx2 hy1 hy2 hxy
    cases x; cases y; simp_all
  have hperm : List.Perm ((s.backupkeyid_backup.scanPfx (backupKey u v)).map (·.1))
      (L.map (fun p => entryKey u v p.1 p.2)) := by
    rw [List.perm_ext_iff_of_nodup hkeysnd hLnd]
    intro k
    rw [hkeys k]
    simp only [List.mem_map]
    constructor
    · rintro ⟨p, hp, rfl⟩; exact ⟨p, hp, rfl⟩
    · rintro ⟨p, hp, rfl⟩; exact ⟨p, hp, rfl⟩
  have hlen := hperm.length_eq
  rw [List.length_map, List.length_map] at hlen
  rw [count_keys]
  exact hlen

theorem C4_count_keys_amended_witness :
    count_keys ⟨[], [], [(entryKey [117] [49] [33] [115], encB 5)]⟩ [117] [49] = 1 :=
  C4_count_keys_amended ⟨[], [], [(entryKey [117] [49] [33] [115], encB 5)]⟩
    [117] [49] [([33], [115])] (by decide) (by decide) (by decide)
    (by
      intro k
      simp [SMap.scanPfx, backupKey, entryKey, sep, List.isPrefixOf])

/-- The entry scan of a version prefix finds nothing after every key it
found has been removed. -/
theorem scanPfx_removeKeys_self {α : Type} (t : SMap α) (p : Bytes) :
    SMap.scanPfx (t.removeKeys ((t.scanPfx p).map (·.1))) p = [] := by
  apply List.eq_nil_iff_forall_not_mem.mpr
  intro kv hkv
  obtain ⟨hmem, hpre⟩ := SMap.mem_scanPfx.mp hkv
  obtain ⟨hmem_t, hnot⟩ := SMap.mem_removeKeys hmem
  exact hnot (List.mem_map.mpr ⟨kv, SMap.mem_scanPfx.mpr ⟨hmem_t, hpre⟩, rfl⟩)

theorem SMap.remove_idem {α : Type} (t : SMap α) (k : Bytes) :
    (t.remove k).remove k = t.remove k := by
  unfold SMap.remove
  rw [List.filter_filter]
  congr 1
  funext kv
  rw [Bool.and_self]

/-- C5 counterexample: with versions `"1"` and `"10"` and one entry under
`"10"`, after `delete_backup(user, "1")` the call `count_keys(user, "1")`
returns 1, not 0 — the non-terminated count prefix still matches the
entry of version `"10"`. -/
theorem C5_delete_backup_counterexample :
    count_keys
      (delete_backup
        (add_key (create_backup (create_backup ⟨[], [], []⟩ [117] 0 1 2).1
            [117] 0 10 11).1
          [117] [49, 48] [33] [115] 5 12).1
        [117] [49])
      [117] [49] = 1 := by decide

/-- C5 (amended): after `delete_backup(user, v)`, `get_backup(user, v)`
returns none and every entry of version `v` is gone (its `get_session`s
return none); `count_keys(user, v)` returns 0 provided no other stored
entry key extends the non-terminated prefix `(user, v)` without belonging
to version `v`; a second `delete_backup` changes nothing. -/
theorem C5_delete_backup_amended :
    (∀ s u v, get_backup (delete_backup s u v) u v = Except.ok none) ∧
    (∀ s u v r sess,
      get_session (delete_backup s u v) u v r sess = Except.ok none) ∧
    (∀ s u v, delete_backup (delete_backup s u v) u v = delete_backup s u v) ∧
    (∀ s u v,
      (∀ kv ∈ s.backupkeyid_backup, (backupKey u v).isPrefixOf kv.1 = true →
        (backupKey u v ++ [sep]).isPrefixOf kv.1 = true) →
      count_keys (delete_backup s u v) u v = 0) := by
  refine ⟨?_, ?_, ?_, ?_⟩
  · intro s u v
    simp only [delete_backup, get_backup, SMap.get_remove_self]
  · intro s u v r sess
    simp only [delete_backup, get_session]
    rw [SMap.get_removeKeys]
    by_cases hin : entryKey u v r sess ∈
        List.map (fun x => x.1)
          (s.backupkeyid_backup.scanPfx (backupKey u v ++ [sep]))
    · rw [if_pos hin]
    · rw [if_neg hin]
      cases hg : SMap.get s.backupkeyid_backup (entryKey u v r sess) with
      | none => rfl
      | some val =>
        exfalso
        apply hin
        have hmem := SMap.get_mem hg
        have hpre : (backupKey u v ++ [sep]).isPrefixOf (entryKey u v r sess)
            = true := by
          rw [List.isPrefixOf_iff_prefix]
          exact ⟨r ++ sep :: sess, by simp [backupKey, entryKey]⟩
        exact List.mem_map.mpr
          ⟨(entryKey u v r sess, val), SMap.mem_scanPfx.mpr ⟨hmem, hpre⟩, rfl⟩
  · intro s u v
    simp only [delete_backup]
    rw [scanPfx_removeKeys_self]
    rw [SMap.remove_idem, SMap.remove_idem]
    rfl
  · intro s u v h
    simp only [delete_backup, count_keys]
    rw [List.length_eq_zero]
    apply List.eq_nil_iff_forall_not_mem.mpr
    intro kv hkv
    obtain ⟨hmem, hpre⟩ := SMap.mem_scanPfx.mp hkv
    obtain ⟨hmem_t, hnot⟩ := SMap.mem_removeKeys hmem
    exact hnot (List.mem_map.mpr
      ⟨kv, SMap.mem_scanPfx.mpr ⟨hmem_t, h kv hmem_t hpre⟩, rfl⟩)

theorem C5_delete_backup_amended_witness :
    count_keys (delete_backup ⟨[], [],
      [(entryKey [117] [49] [33] [115], encB 0)]⟩ [117] [49]) [117] [49] = 0 :=
  C5_delete_backup_amended.2.2.2 ⟨[], [],
    [(entryKey [117] [49] [33] [115], encB 0)]⟩ [117] [49] (by decide)

/-- C7: `get_latest_backup` returns none when the user has no backup
versions; with a well-formed tree the row it reports is the one whose
encoded key sorts last byte-lexicographically among the user's rows; and
for a user holding exactly versions `"5"` and `"10"` it returns version
`"5"`'s metadata (here 7), not `"10"`'s (8), since `"10"` sorts before
`"5"` as bytes. -/
theorem C7_get_latest_backup :
    (∀ (s : KeyBackups) (u : Bytes), s.backupid_algorithm.scanPfx (userPfx u) = [] →
      get_latest_backup s u = Except.ok none) ∧
    (∀ (s : KeyBackups) (u k : Bytes) (val : Bytes), s.backupid_algorithm.Wf →
      (s.backupid_algorithm.scanPfx (userPfx u)).getLast? = some (k, val) →
      ∀ kv ∈ s.backupid_algorithm.scanPfx (userPfx u),
        kv.1 = k ∨ bytesLt kv.1 k = true) ∧
    get_latest_backup
      (create_backup (create_backup ⟨[], [], []⟩ [117] 7 5 6).1 [117] 8 10 11).1
      [117] = Except.ok (some ([53], 7)) := by
  refine ⟨?_, ?_, ?_⟩
  · intro s u h
    rw [get_latest_backup, h]
    rfl
  · intro s u k val hWf hlast kv hkv
    have hp := SMap.scanPfx_wf hWf (userPfx u)
    rcases pairwise_getLast_max hp hlast hkv with heq | hlt
    · exact Or.inl (by rw [heq])
    · exact Or.inr hlt
  · rfl

theorem C7_get_latest_backup_witness :
    get_latest_backup ⟨[], [], []⟩ [117] = Except.ok none ∧
    ((backupKey [117] [49], encB 0).1 = backupKey [117] [49] ∨
      bytesLt (backupKey [117] [49], encB 0).1 (backupKey [117] [49]) = true) :=
  ⟨C7_get_latest_backup.1 ⟨[], [], []⟩ [117] rfl,
   C7_get_latest_backup.2.1 ⟨[(backupKey [117] [49], encB 0)], [], []⟩ [117]
     (backupKey [117] [49]) (encB 0) (by decide) rfl
     (backupKey [117] [49], encB 0) (by decide)⟩

/-- A monadic fold over `Except` fails whenever some list element makes
the step function fail regardless of the accumulator. -/
theorem foldlM_error_of_mem {γ : Type} {l : List (Bytes × Bytes)}
    {f : γ → Bytes × Bytes → Except Err γ} {x : Bytes × Bytes} (hx : x ∈ l)
    (hf : ∀ acc, ∃ e, f acc x = Except.error e) :
    ∀ acc, ∃ e, l.foldlM f acc = Except.error e := by
  induction l with
  | nil => simp at hx
  | cons y ys ih =>
    intro acc
    rw [List.foldlM_cons]
    rcases List.mem_cons.mp hx with rfl | hmem
    · obtain ⟨e, he⟩ := hf acc
      rw [he]
      exact ⟨e, rfl⟩
    · cases hy : f acc y with
      | error e => exact ⟨e, rfl⟩
      | ok acc' => simpa using ih hmem acc'

/-- C8 counterexample: the claim says `get_room`'s silent skip is the
only place where a failure does not propagate, every other operation
passing every underlying-store failure to the caller immediately — but
the cascade-delete loop, fed a single failed scan item over a one-entry
tree, reports success and removes nothing: the store failure is silently
dropped by the loop's `Ok`-filtering of scan items. -/
theorem C8_delete_loop_counterexample :
    removeScannedKeys [([117], [0])]
      [(Except.error StoreErr.ioFailure : Except StoreErr Bytes)] =
      ([([117], [0])], Except.ok ()) := rfl

/-- C8 (amended): a stored entry that fails to decode makes `get_all`
fail with a decode error and no partial result, while `get_room` silently
omits exactly the undecodable entries; `get_session`, `get_backup`,
`get_etag` and `get_latest_backup` propagate a decode failure of stored
data as an error; but `get_room`'s skip is not the only non-propagating
site: the cascade-delete loops silently drop failed scan items and
complete with success no matter how many items failed. -/
theorem C8_failure_propagation_amended :
    (∀ s u v kv e, kv ∈ s.backupkeyid_backup.scanPfx (entriesPfx u v) →
      decodeEntry kv.1 kv.2 = Except.error e →
      ∃ e', get_all s u v = Except.error e') ∧
    (∀ a b t1 kv t2 u v r e, decodeRoomEntry kv.1 kv.2 = Except.error e →
      get_room ⟨a, b, t1 ++ kv :: t2⟩ u v r = get_room ⟨a, b, t1 ++ t2⟩ u v r) ∧
    (∀ s u v r sess val,
      s.backupkeyid_backup.get (entryKey u v r sess) = some val →
      decB val = none →
      get_session s u v r sess = Except.error Err.badDatabase) ∧
    (∀ s u v val,
      s.backupid_algorithm.get (backupKey u v) = some val → decB val = none →
      get_backup s u v = Except.error Err.badDatabase) ∧
    (∀ s u v val,
      s.backupid_etag.get (backupKey u v) = some val →
      u64_from_bytes val = none →
      get_etag s u v = Except.error Err.badDatabase) ∧
    (∀ (s : KeyBackups) (u k val : Bytes),
      (s.backupid_algorithm.scanPfx (userPfx u)).getLast? = some (k, val) →
      decB val = none →
      get_latest_backup s u = Except.error Err.badDatabase) ∧
    (∀ (ε : Type) (t : SMap Bytes) (e : ε) (results : List (Except ε Bytes)),
      removeScannedKeys t (Except.error e :: results) =
        removeScannedKeys t results) ∧
    (∀ (ε : Type) (t : SMap Bytes) (results : List (Except ε Bytes)),
      (removeScannedKeys t results).2 = Except.ok ()) := by
  refine ⟨?_, ?_, ?_, ?_, ?_, ?_, ?_, ?_⟩
  · intro s u v kv e hmem hdec
    rw [get_all]
    exact foldlM_error_of_mem hmem (fun acc => ⟨e, by rw [hdec]; rfl⟩) []
  · intro a b t1 kv t2 u v r e hdec
    rw [get_room, get_room]
    congr 1
    simp only [SMap.scanPfx, List.filter_append, List.filter_cons]
    by_cases hp : (roomPfx u v r).isPrefixOf kv.1 = true
    · simp only [hp, if_pos, List.filterMap_append, List.filterMap_cons, hdec]
      rfl
    · simp only [Bool.not_eq_true] at hp
      simp only [hp]
      rfl
  · intro s u v r sess val hget hdec
    simp only [get_session, hget, hdec]
  · intro s u v val hget hdec
    simp only [get_backup, hget, hdec]
  · intro s u v val hget hdec
    simp only [get_etag, hget, hdec]
  · intro s u k val hlast hdec
    cases hsv : string_from_bytes ((rsplitFF k).headD []) with
    | none => simp only [get_latest_backup, hlast, hsv]
    | some ver => simp only [get_latest_backup, hlast, hsv, hdec]
  · intro ε t e results
    rfl
  · intro ε t results
    rfl

theorem C8_failure_propagation_amended_witness :
    get_all ⟨[(backupKey [117] [49], encB 0)],
        [(backupKey [117] [49], u64be 1)],
        [(entryKey [117] [49] [33] [115], [1])]⟩ [117] [49] =
      Except.error Err.badDatabase ∧
    get_room ⟨[], [], [] ++ (entryKey [117] [49] [33] [115], [1]) ::
        [(entryKey [117] [49] [33] [116], encB 4)]⟩ [117] [49] [33] =
      get_room ⟨[], [], [] ++ [(entryKey [117] [49] [33] [116], encB 4)]⟩
        [117] [49] [33] ∧
    get_session ⟨[], [], [(entryKey [117] [49] [33] [115], [1])]⟩
      [117] [49] [33] [115] = Except.error Err.badDatabase ∧
    get_backup ⟨[(backupKey [117] [49], [1])], [], []⟩ [117] [49] =
      Except.error Err.badDatabase ∧
    get_etag ⟨[], [(backupKey [117] [49], [1, 2])], []⟩ [117] [49] =
      Except.error Err.badDatabase ∧
    get_latest_backup ⟨[(backupKey [117] [49], [1])], [], []⟩ [117] =
      Except.error Err.badDatabase ∧
    removeScannedKeys [([117], [0])]
      [(Except.error StoreErr.ioFailure : Except StoreErr Bytes)] =
      removeScannedKeys ([([117], [0])] : SMap Bytes)
        ([] : List (Except StoreErr Bytes)) :=
  ⟨by
    obtain ⟨e', he⟩ := C8_failure_propagation_amended.1
      ⟨[(backupKey [117] [49], encB 0)], [(backupKey [117] [49], u64be 1)],
        [(entryKey [117] [49] [33] [115], [1])]⟩ [117] [49]
      (entryKey [117] [49] [33] [115], [1]) Err.badDatabase (by decide) rfl
    have h2 : e' = Err.badDatabase := by
      have h3 : (Except.error e' : Except Err (SMap (SMap Nat))) =
          Except.error Err.badDatabase := by
        rw [← he]
        rfl
      exact Except.error.inj h3
    rw [← h2]
    exact he,
   C8_failure_propagation_amended.2.1 [] [] []
      (entryKey [117] [49] [33] [115], [1])
      [(entryKey [117] [49] [33] [116], encB 4)] [117] [49] [33]
      Err.badDatabase rfl,
   C8_failure_propagation_amended.2.2.1 _ [117] [49] [33] [115] [1] rfl rfl,
   C8_failure_propagation_amended.2.2.2.1 _ [117] [49] [1] rfl rfl,
   C8_failure_propagation_amended.2.2.2.2.1 _ [117] [49] [1, 2] rfl rfl,
   C8_failure_propagation_amended.2.2.2.2.2.1 ⟨[(backupKey [117] [49], [1])],
      [], []⟩ [117] (backupKey [117] [49]) [1] rfl rfl,
   C8_failure_propagation_amended.2.2.2.2.2.2.1 StoreErr [([117], [0])]
      StoreErr.ioFailure []⟩

/-- C9: for separator-free components the composite-key encodings (the
two-part backup key and the four-part entry key) are injective; and
entry-key decoding — the two rightmost splits on `0xff` — fails with a
decode error exactly along the claimed lines: when the expected
separator-delimited segments are absent (the key holds no separator, so
the room segment does not exist), when the session segment is not valid
text, when the room segment is not valid text, or when the room segment
is valid text but not valid room-id syntax; and with a separator present
and both rightmost segments valid the decoding succeeds, also on a key
with a single separator (the decoder inspects only the two rightmost
segments). -/
theorem C9_key_codec :
    (∀ u v r s u' v' r' s' : Bytes, noSep u = true → noSep v = true →
      noSep r = true → noSep s = true → noSep u' = true → noSep v' = true →
      noSep r' = true → noSep s' = true →
      entryKey u v r s = entryKey u' v' r' s' →
      u = u' ∧ v = v' ∧ r = r' ∧ s = s') ∧
    (∀ u v u' v' : Bytes, noSep u = true → noSep v = true → noSep u' = true →
      noSep v' = true → backupKey u v = backupKey u' v' → u = u' ∧ v = v') ∧
    (∀ k val : Bytes, noSep k = true →
      decodeEntry k val = Except.error Err.badDatabase) ∧
    (∀ u v r s val : Bytes, noSep u = true → noSep v = true → noSep r = true →
      noSep s = true → string_from_bytes s = none →
      decodeEntry (entryKey u v r s) val = Except.error Err.badDatabase) ∧
    (∀ u v r s val : Bytes, noSep u = true → noSep v = true → noSep r = true →
      noSep s = true → string_from_bytes s = some s →
      string_from_bytes r = none →
      decodeEntry (entryKey u v r s) val = Except.error Err.badDatabase) ∧
    (∀ u v r s val : Bytes, noSep u = true → noSep v = true → noSep r = true →
      noSep s = true → string_from_bytes s = some s →
      string_from_bytes r = some r → roomIdFromBytes r = none →
      decodeEntry (entryKey u v r s) val = Except.error Err.badDatabase) ∧
    (∀ (u v r s val : Bytes) (kd : Nat), noSep u = true → noSep v = true →
      noSep r = true → noSep s = true → string_from_bytes s = some s →
      string_from_bytes r = some r → roomIdFromBytes r = some r →
      decB val = some kd →
      decodeEntry (entryKey u v r s) val = Except.ok (r, s, kd)) ∧
    (∀ (r s val : Bytes) (kd : Nat), noSep r = true → noSep s = true →
      string_from_bytes s = some s → string_from_bytes r = some r →
      roomIdFromBytes r = some r → decB val = some kd →
      decodeEntry (r ++ sep :: s) val = Except.ok (r, s, kd)) := by
  refine ⟨?_, ?_, ?_, ?_, ?_, ?_, ?_, ?_⟩
  · intro u v r s u' v' r' s' hu hv hr hs hu' hv' hr' hs' h
    exact entryKey_inj hu hv hr hu' hv' hr' h
  · intro u v u' v' hu hv hu' hv' h
    exact backupKey_inj hu hu' h
  · intro k val hk
    have hparts : rsplitFF k = [k] := by
      rw [rsplitFF, splitFF_noSep hk, List.reverse_singleton]
    rw [decodeEntry, hparts]
    simp only [List.headD_cons]
    cases hsv : string_from_bytes k with
    | none => rfl
    | some x => rfl
  · intro u v r s val hu hv hr hs hbad
    have hparts : rsplitFF (entryKey u v r s) = [s, r, v, u] := by
      rw [rsplitFF, splitFF_entryKey hu hv hr hs]
      rfl
    rw [decodeEntry, hparts]
    simp only [List.headD_cons, hbad]
    rfl
  · intro u v r s val hu hv hr hs hsv hrv
    have hparts : rsplitFF (entryKey u v r s) = [s, r, v, u] := by
      rw [rsplitFF, splitFF_entryKey hu hv hr hs]
      rfl
    rw [decodeEntry_eq, hparts]
    simp only [List.headD_cons, hsv, List.getElem?_cons_succ,
      List.getElem?_cons_zero, hrv]
  · intro u v r s val hu hv hr hs hsv hrv hrid
    have hparts : rsplitFF (entryKey u v r s) = [s, r, v, u] := by
      rw [rsplitFF, splitFF_entryKey hu hv hr hs]
      rfl
    rw [decodeEntry_eq, hparts]
    simp only [List.headD_cons, hsv, List.getElem?_cons_succ,
      List.getElem?_cons_zero, hrv, hrid]
  · intro u v r s val kd hu hv hr hs hsv hrv hrid hval
    have hparts : rsplitFF (entryKey u v r s) = [s, r, v, u] := by
      rw [rsplitFF, splitFF_entryKey hu hv hr hs]
      rfl
    rw [decodeEntry_eq, hparts]
    simp only [List.headD_cons, hsv, List.getElem?_cons_succ,
      List.getElem?_cons_zero, hrv, hrid, hval]
  · intro r s val kd hr hs hsv hrv hrid hval
    have hparts : rsplitFF (r ++ sep :: s) = [s, r] := by
      rw [rsplitFF, splitFF_append s hr, splitFF_noSep hs]
      rfl
    rw [decodeEntry_eq, hparts]
    simp only [List.headD_cons, hsv, List.getElem?_cons_succ,
      List.getElem?_cons_zero, hrv, hrid, hval]

theorem C9_key_codec_witness :
    ([117] = ([117] : Bytes) ∧ [49] = ([49] : Bytes) ∧ [33] = ([33] : Bytes) ∧
      [115] = ([115] : Bytes)) ∧
    decodeEntry [115] [0] = Except.error Err.badDatabase ∧
    decodeEntry (entryKey [117] [49] [33] [200]) [0] =
      Except.error Err.badDatabase ∧
    decodeEntry (entryKey [117] [49] [200] [115]) [0] =
      Except.error Err.badDatabase ∧
    decodeEntry (entryKey [117] [49] [114] [115]) [0] =
      Except.error Err.badDatabase ∧
    decodeEntry (entryKey [117] [49] [33, 114] [115]) (encB 4) =
      Except.ok ([33, 114], [115], 4) ∧
    decodeEntry ([33, 114] ++ sep :: [115]) (encB 4) =
      Except.ok ([33, 114], [115], 4) :=
  ⟨C9_key_codec.1 [117] [49] [33] [115] [117] [49] [33] [115]
      rfl rfl rfl rfl rfl rfl rfl rfl rfl,
   C9_key_codec.2.2.1 [115] [0] rfl,
   C9_key_codec.2.2.2.1 [117] [49] [33] [200] [0] rfl rfl rfl rfl rfl,
   C9_key_codec.2.2.2.2.1 [117] [49] [200] [115] [0] rfl rfl rfl rfl rfl rfl,
   C9_key_codec.2.2.2.2.2.1 [117] [49] [114] [115] [0]
      rfl rfl rfl rfl rfl rfl rfl,
   C9_key_codec.2.2.2.2.2.2.1 [117] [49] [33, 114] [115] (encB 4) 4
      rfl rfl rfl rfl rfl rfl rfl rfl,
   C9_key_codec.2.2.2.2.2.2.2 [33, 114] [115] (encB 4) 4
      rfl rfl rfl rfl rfl rfl⟩

/-- C10: `delete_room_key(user, version, room, session)` removes by a
prefix scan on the non-terminated full key, so it deletes every entry of
that room whose session id extends the given session id byte-wise (for
example deleting session `"s"` also removes `"s1"`), and it leaves every
entry of that room whose session id does not extend the given one
untouched. -/
theorem C10_delete_room_key_pfx_scan :
    (∀ (s : KeyBackups) (u v r sess sess' : Bytes),
      sess.isPrefixOf sess' = true →
      get_session (delete_room_key s u v r sess) u v r sess' =
        Except.ok none) ∧
    (∀ (s : KeyBackups) (u v r sess sess' : Bytes),
      sess.isPrefixOf sess' = false →
      get_session (delete_room_key s u v r sess) u v r sess' =
        get_session s u v r sess') := by
  constructor
  · intro s u v r sess sess' h
    simp only [delete_room_key, get_session]
    rw [SMap.get_removeKeys]
    by_cases hin : entryKey u v r sess' ∈
        List.map (fun x => x.1)
          (s.backupkeyid_backup.scanPfx (entryKey u v r sess))
    · rw [if_pos hin]
    · rw [if_neg hin]
      cases hg : SMap.get s.backupkeyid_backup (entryKey u v r sess') with
      | none => rfl
      | some val =>
        exfalso
        apply hin
        have hmem := SMap.get_mem hg
        have hpre : (entryKey u v r sess).isPrefixOf (entryKey u v r sess')
            = true := by
          rw [List.isPrefixOf_iff_prefix]
          obtain ⟨t, rfl⟩ := List.isPrefixOf_iff_prefix.mp h
          exact ⟨t, by simp [entryKey]⟩
        exact List.mem_map.mpr
          ⟨(entryKey u v r sess', val), SMap.mem_scanPfx.mpr ⟨hmem, hpre⟩, rfl⟩
  · intro s u v r sess sess' h
    simp only [delete_room_key, get_session]
    rw [SMap.get_removeKeys]
    rw [if_neg ?hnot]
    case hnot =>
      intro hin
      obtain ⟨kv, hkv, hkey⟩ := List.mem_map.mp hin
      obtain ⟨-, hpre⟩ := SMap.mem_scanPfx.mp hkv
      rw [hkey] at hpre
      obtain ⟨t, ht⟩ := List.isPrefixOf_iff_prefix.mp hpre
      have hts : sess ++ t = sess' := by
        simpa [entryKey] using ht
      have : sess.isPrefixOf sess' = true :=
        List.isPrefixOf_iff_prefix.mpr ⟨t, hts⟩
      rw [h] at this
      exact Bool.false_ne_true this

theorem C10_delete_room_key_pfx_scan_witness :
    get_session
      (delete_room_key ⟨[], [],
        [(entryKey [117] [49] [33] [115, 49], encB 5),
         (entryKey [117] [49] [33] [116], encB 6)]⟩ [117] [49] [33] [115])
      [117] [49] [33] [115, 49] = Except.ok none ∧
    get_session
      (delete_room_key ⟨[], [],
        [(entryKey [117] [49] [33] [115, 49], encB 5),
         (entryKey [117] [49] [33] [116], encB 6)]⟩ [117] [49] [33] [115])
      [117] [49] [33] [116] = Except.ok (some 6) := by
  constructor
  · exact C10_delete_room_key_pfx_scan.1 ⟨[], [],
      [(entryKey [117] [49] [33] [115, 49], encB 5),
       (entryKey [117] [49] [33] [116], encB 6)]⟩ [117] [49] [33] [115]
      [115, 49] (by decide)
  · rw [C10_delete_room_key_pfx_scan.2 ⟨[], [],
      [(entryKey [117] [49] [33] [115, 49], encB 5),
       (entryKey [117] [49] [33] [116], encB 6)]⟩ [117] [49] [33] [115]
      [116] (by decide)]
    rfl

end Conduit
